import Mathlib

/-!
Verification of the `node-fn` combinator library (`src/fn.js`).

Each JavaScript combinator is shallowly embedded as a Lean function.
JavaScript values are modelled by `JSVal`; caller-supplied callbacks are
modelled as Lean functions over `JSVal`, with mutable closure state made
explicit as a threaded state parameter.  Each call to a wrapped function
additionally reports the list of target invocations it performed
(receiver and argument list), so that firing patterns can be stated and
proved.
-/

namespace Fn

/-- A JavaScript value, as far as the library inspects values:
`undefined`, primitives, and opaque callables (identified by a tag). -/
inductive JSVal where
  | undef : JSVal
  | boolean : Bool → JSVal
  | num : Int → JSVal
  | str : String → JSVal
  | closure : Nat → JSVal
deriving DecidableEq, Repr

/-- JS `typeof v == 'function'`. -/
def isCallable : JSVal → Bool
  | JSVal.closure _ => true
  | _ => false

/-- One invocation of a target callback: the receiver (`this`-binding)
it was applied with, and its full argument list. -/
structure Inv where
  recv : JSVal
  args : List JSVal
deriving DecidableEq, Repr

/-- Result of one call to a wrapped function: the value returned to the
caller, the updated private closure state, and the target invocations
performed during the call. -/
structure CallOut (σ : Type) where
  ret : JSVal
  st : σ
  invs : List Inv
deriving DecidableEq, Repr

/-- Embedding of `when(check, fn, ...args)` (src/fn.js lines 44–52),
one call of the returned wrapped function.  The predicate `check` is a
state transformer (`check()` may mutate its closure; `when` calls it
exactly once per call, reflected by the single state step).  On a truthy
predicate the target is applied to the caller's receiver with the bound
arguments followed by the call arguments and its value is returned; on a
falsy predicate nothing is invoked and `undefined` is returned. -/
def whenCall {σ : Type} (check : σ → Bool × σ) (fn : JSVal → List JSVal → JSVal)
    (args : List JSVal) (s : σ) (recv : JSVal) (callArgs : List JSVal) : CallOut σ :=
  let p := check s
  if p.1 then
    { ret := fn recv (args ++ callArgs), st := p.2, invs := [⟨recv, args ++ callArgs⟩] }
  else
    { ret := JSVal.undef, st := p.2, invs := [] }

/-- A sequence of calls to a `when`-wrapped function, threading the
closure state.  Each list entry of the input is one call (receiver,
call-time arguments); each entry of the output is that call's returned
value and the target invocations it performed. -/
def whenRun {σ : Type} (check : σ → Bool × σ) (fn : JSVal → List JSVal → JSVal)
    (args : List JSVal) : σ → List (JSVal × List JSVal) → List (JSVal × List Inv) × σ
  | s, [] => ([], s)
  | s, c :: rest =>
    let o := whenCall check fn args s c.1 c.2
    let r := whenRun check fn args o.st rest
    ((o.ret, o.invs) :: r.1, r.2)

/-- JS `a % b === 0` for a nonnegative integer `a` and modulus `b`:
when `b = 0`, JS evaluates `a % 0` to `NaN` and `NaN === 0` is false;
otherwise it is the integer remainder test. -/
def jsRemEqZero (a b : Nat) : Bool :=
  if b = 0 then false else a % b == 0

/-- The private predicate closure built by `debounce(every, fn, ...)`
(src/fn.js lines 82–87): increment the counter, then report whether the
post-increment counter is divisible by `every`. -/
def debouncePredicate (every : Nat) (count : Nat) : Bool × Nat :=
  (jsRemEqZero (count + 1) every, count + 1)

/-- The private predicate closure built by `counts(times, fn, ...)`
(src/fn.js lines 118–123): if the counter equals `times` return `true`
without incrementing, otherwise increment and return `false`. -/
def countsPredicate (times : Nat) (count : Nat) : Bool × Nat :=
  if count == times then (true, count) else (false, count + 1)

/-- The closure data captured by a successfully constructed
`arglock` wrapped function: the target and the pre-bound arguments. -/
structure Arglocked where
  fn : JSVal
  args : List JSVal
deriving DecidableEq, Repr

/-- Embedding of the `arglock(...)` factory (src/fn.js lines 142–153),
applied to its full JS argument list.  Validation happens here, at
factory-call time: if the argument list is empty or its first element is
not callable, the factory itself throws (`Except.error`); otherwise the
first argument is shifted off as the target and the remainder becomes
the bound-argument list of the returned wrapped function. -/
def arglock (args : List JSVal) : Except String Arglocked :=
  if args.length = 0 || !(isCallable (args.headD JSVal.undef)) then
    Except.error "first argument must be a function"
  else
    Except.ok { fn := args.headD JSVal.undef, args := args.tail }

/-- The loop body of the wrapped function returned by
`times(count, fn, ...args)` (src/fn.js lines 178–184): perform the
remaining repetitions, applying the target to the caller's receiver and
the bound arguments only.  The target is a state transformer that may
throw (`Except.error`); a throw aborts the remaining repetitions and the
partial results are discarded.  Also returns the final target state and
the list of invocations performed. -/
def timesGo {τ : Type} (fn : τ → JSVal → List JSVal → Except String JSVal × τ)
    (args : List JSVal) (recv : JSVal) :
    Nat → τ → Except String (List JSVal) × τ × List Inv
  | 0, st => (Except.ok [], st, [])
  | n + 1, st =>
    let r := fn st recv args
    match r.1 with
    | Except.error e => (Except.error e, r.2, [⟨recv, args⟩])
    | Except.ok v =>
      match timesGo fn args recv n r.2 with
      | (Except.error e, st'', tr) => (Except.error e, st'', ⟨recv, args⟩ :: tr)
      | (Except.ok vs, st'', tr) => (Except.ok (v :: vs), st'', ⟨recv, args⟩ :: tr)

/-- One call of the wrapped function returned by
`times(count, fn, ...args)` (src/fn.js lines 175–188).  The call-time
arguments `callArgs` are accepted but never forwarded to the target; the
receiver of the call is forwarded to every repetition. -/
def timesCall {τ : Type} (count : Nat)
    (fn : τ → JSVal → List JSVal → Except String JSVal × τ)
    (args : List JSVal) (st : τ) (recv : JSVal) (callArgs : List JSVal) :
    Except String (List JSVal) × τ × List Inv :=
  let _ := callArgs
  timesGo fn args recv count st

/-- Injects a non-throwing (but possibly stateful) target into the
throwing target type used by `timesGo`. -/
def liftPure {τ : Type} (fn : τ → JSVal → List JSVal → JSVal × τ) :
    τ → JSVal → List JSVal → Except String JSVal × τ :=
  fun st recv args => (Except.ok (fn st recv args).1, (fn st recv args).2)

/-- The ordered sequence of return values (and final state) of `n`
successive applications of a non-throwing stateful target to a fixed
receiver and argument list.  Used to state what `times` returns. -/
def pureSeq {τ : Type} (fn : τ → JSVal → List JSVal → JSVal × τ)
    (recv : JSVal) (args : List JSVal) : Nat → τ → List JSVal × τ
  | 0, st => ([], st)
  | n + 1, st =>
    let r := fn st recv args
    let rest := pureSeq fn recv args n r.2
    (r.1 :: rest.1, rest.2)

/-- State of one `rateLimit(wait, fn)` instance (src/fn.js lines
213–233) together with its host timer facility.  `active` is the list
of scheduled, not-yet-fired, not-cancelled timeout ids; `clear` records
which timeout id the instance's private `clear` closure currently
targets (`none` before the first call); `nextId` is the fresh-id supply
of the host's `setTimeout`; `fired` records, in order, the timeouts that
actually fired (each firing invokes the target once). -/
structure RLState where
  active : List Nat
  clear : Option Nat
  nextId : Nat
  fired : List Nat
deriving DecidableEq, Repr

/-- Events a `rateLimit` instance can experience: a call to the wrapped
function, an invocation of the cancellation handle that captured timeout
`id`, and the firing of timeout `id` by the host timer facility. -/
inductive RLEvent where
  | call : RLEvent
  | handle : Nat → RLEvent
  | fire : Nat → RLEvent
deriving DecidableEq, Repr

/-- Host `clearTimeout`: removes a timeout id from the active list; a
no-op when the id is not scheduled (already fired, already cleared, or
never issued). -/
def hostClearTimeout (active : List Nat) (id : Nat) : List Nat :=
  active.filter (fun t => t != id)

/-- A freshly constructed `rateLimit` instance: no pending timeout, the
private `clear` variable still undefined, nothing fired. -/
def rlInit : RLState :=
  { active := [], clear := none, nextId := 0, fired := [] }

/-- One step of a `rateLimit` instance.  A `call` first runs
`if (clear) clear()` — clearing the timeout id the current `clear`
closure targets — then schedules a fresh timeout, repoints `clear` at
it, and hands the caller a handle for it.  A `handle id` runs
`clearTimeout(id)` for the specific id its closure captured.  A
`fire id` only has an effect if `id` is still scheduled: the target is
invoked (recorded in `fired`) and the timeout is dequeued; the
instance's `clear` variable is not touched by firing, matching the JS
code. -/
def rlStep (s : RLState) : RLEvent → RLState
  | RLEvent.call =>
    let cleared := match s.clear with
      | some id => hostClearTimeout s.active id
      | none => s.active
    { active := cleared ++ [s.nextId], clear := some s.nextId,
      nextId := s.nextId + 1, fired := s.fired }
  | RLEvent.handle id => { s with active := hostClearTimeout s.active id }
  | RLEvent.fire id =>
    if id ∈ s.active then
      { s with active := hostClearTimeout s.active id, fired := s.fired ++ [id] }
    else s

/-- The state of a `rateLimit` instance after a sequence of events,
starting from construction. -/
def rlRun (evs : List RLEvent) : RLState :=
  evs.foldl rlStep rlInit

/-- The reachability invariant of a `rateLimit` instance: the active
list is empty or consists exactly of the timeout the `clear` closure
targets, and every issued id is below the fresh-id supply. -/
def rlInv (s : RLState) : Prop :=
  (s.active = [] ∨ ∃ c, s.clear = some c ∧ s.active = [c]) ∧
  (∀ id ∈ s.active, id < s.nextId) ∧
  (∀ c, s.clear = some c → c < s.nextId)

/-- A target that ignores everything and returns `undefined`; used to
evaluate firing patterns on concrete inputs. -/
def ignoreTgt : JSVal → List JSVal → JSVal := fun _ _ => JSVal.undef

/-- `m` calls of a wrapped function with no receiver of interest and no
call-time arguments. -/
def unitCalls (m : Nat) : List (JSVal × List JSVal) :=
  List.replicate m (JSVal.undef, [])

/-- How many times each call of a run invoked the target (0 or 1 per
call for a `when`-built wrapped function). -/
def fireCounts (outs : List (JSVal × List Inv)) : List Nat :=
  outs.map (fun o => o.2.length)

/-- The expected per-call firing flags of `debounce(N, ...)` starting
from counter value `c`, for `m` calls: call `i` (0-based) fires iff the
post-increment counter `c + i + 1` passes the JS divisibility test. -/
def expectedFlags (N : Nat) : Nat → Nat → List Nat
  | _, 0 => []
  | c, m + 1 =>
    (if jsRemEqZero (c + 1) N then 1 else 0) :: expectedFlags N (c + 1) m

/-- Whether an `Except` result is a normal return. -/
def isOkE {ε α : Type} : Except ε α → Bool
  | Except.ok _ => true
  | Except.error _ => false

/-- A stateful target whose behaviour depends only on which invocation
(1-based) it is: its state is the number of invocations so far and `f j`
is the outcome of the `j`-th invocation. -/
def idxTarget (f : Nat → Except String JSVal) :
    Nat → JSVal → List JSVal → Except String JSVal × Nat :=
  fun n _ _ => (f (n + 1), n + 1)

end Fn

namespace Fn

/-! ### Behaviour of the `when` primitive (claim C2) -/

/-- C2: each call to the wrapped function returned by
`when(predicate, target, ...boundArgs)` evaluates the predicate exactly
once (its closure state advances by exactly one predicate step); if the
predicate is truthy the call invokes `target(...boundArgs, ...callArgs)`
with the caller's receiver forwarded, and returns the target's value;
if falsy it performs no invocation and returns `undefined`. -/
theorem when_dispatch {σ : Type} (check : σ → Bool × σ)
    (fn : JSVal → List JSVal → JSVal) (args : List JSVal) (s : σ)
    (recv : JSVal) (callArgs : List JSVal) :
    (whenCall check fn args s recv callArgs).st = (check s).2 ∧
    ((check s).1 = true →
      (whenCall check fn args s recv callArgs).ret = fn recv (args ++ callArgs) ∧
      (whenCall check fn args s recv callArgs).invs = [⟨recv, args ++ callArgs⟩]) ∧
    ((check s).1 = false →
      (whenCall check fn args s recv callArgs).ret = JSVal.undef ∧
      (whenCall check fn args s recv callArgs).invs = []) := by
  unfold whenCall
  rcases h : check s with ⟨b, s'⟩
  cases b <;> simp

/-- A concrete predicate for the `when` witness: true exactly on
counter value 0, incrementing its counter. -/
def wChk : Nat → Bool × Nat := fun n => (n == 0, n + 1)

/-- A concrete target for the `when` witness: returns its receiver. -/
def wTgt : JSVal → List JSVal → JSVal := fun recv _ => recv

/-- Witness for `when_dispatch` at a concrete truthy call. -/
theorem when_dispatch_witness :
    (wChk 0).1 = true ∧
    (whenCall wChk wTgt [JSVal.num 1] 0 (JSVal.num 3) [JSVal.num 2]).ret
      = wTgt (JSVal.num 3) ([JSVal.num 1] ++ [JSVal.num 2]) ∧
    (whenCall wChk wTgt [JSVal.num 1] 0 (JSVal.num 3) [JSVal.num 2]).invs
      = [⟨JSVal.num 3, [JSVal.num 1] ++ [JSVal.num 2]⟩] :=
  ⟨by decide,
   ((when_dispatch wChk wTgt [JSVal.num 1] 0 (JSVal.num 3) [JSVal.num 2]).2.1 (by decide)).1,
   ((when_dispatch wChk wTgt [JSVal.num 1] 0 (JSVal.num 3) [JSVal.num 2]).2.1 (by decide)).2⟩

/-! ### The `counts` firing pattern (claim C1) -/

/-- C1 fails on the code: `counts` hands `when` a predicate that is
falsy while the counter is below the limit and truthy from then on, and
`when` fires its target exactly on truthy predicates.  With limit 2 and
three calls the target is invoked on no call but the third — the
opposite of the documented pattern (fire on calls 1..2, silence on 3),
so the wrapped function fires 1 time, not `limit = 2` times. -/
theorem counts_inverted_at_limit2 :
    fireCounts (whenRun (countsPredicate 2) ignoreTgt [] 0 (unitCalls 3)).1
        = [0, 0, 1] ∧
    (fireCounts (whenRun (countsPredicate 2) ignoreTgt [] 0 (unitCalls 3)).1).sum
        = 1 := by
  exact ⟨rfl, rfl⟩

/-! ### The `debounce` firing pattern (claims C3, C8, C10) -/

/-- For a positive period the JS test agrees with divisibility. -/
lemma jsRemEqZero_eq_dvd (a N : Nat) (hN : N ≠ 0) :
    jsRemEqZero a N = true ↔ N ∣ a := by
  unfold jsRemEqZero
  rw [if_neg hN]
  simp [Nat.dvd_iff_mod_eq_zero]

/-- Running a `debounce`-wrapped function from counter value `c`:
the per-call invocation counts follow `expectedFlags` and the counter
advances by exactly one per call, whatever the target and arguments. -/
lemma whenRun_debounce (N : Nat) (tgt : JSVal → List JSVal → JSVal)
    (bound : List JSVal) :
    ∀ (calls : List (JSVal × List JSVal)) (c : Nat),
      fireCounts (whenRun (debouncePredicate N) tgt bound c calls).1
          = expectedFlags N c calls.length ∧
      (whenRun (debouncePredicate N) tgt bound c calls).2 = c + calls.length := by
  intro calls
  induction calls with
  | nil =>
    intro c
    simp [whenRun, fireCounts, expectedFlags]
  | cons hd tl ih =>
    intro c
    have h := ih (c + 1)
    by_cases hb : jsRemEqZero (c + 1) N = true
    · constructor
      · simp [whenRun, whenCall, debouncePredicate, fireCounts, expectedFlags, hb] at h ⊢
        exact h.1
      · simp [whenRun, whenCall, debouncePredicate, hb, h.2]
        omega
    · rw [Bool.not_eq_true] at hb
      constructor
      · simp [whenRun, whenCall, debouncePredicate, fireCounts, expectedFlags, hb] at h ⊢
        exact h.1
      · simp [whenRun, whenCall, debouncePredicate, hb, h.2]
        omega

/-- Summing the expected flags: the number of fires among `m` calls
starting from counter `c` is the number of multiples of `N` in
`(c, c + m]`. -/
lemma expectedFlags_sum (N : Nat) (hN : 0 < N) :
    ∀ (m c : Nat), (expectedFlags N c m).sum + c / N = (c + m) / N := by
  intro m
  induction m with
  | zero =>
    intro c
    simp [expectedFlags]
  | succ m ih =>
    intro c
    have hflag : (if jsRemEqZero (c + 1) N then (1 : Nat) else 0)
        = if N ∣ (c + 1) then 1 else 0 := by
      by_cases hd : N ∣ (c + 1)
      · rw [if_pos hd, if_pos ((jsRemEqZero_eq_dvd (c + 1) N (Nat.pos_iff_ne_zero.mp hN)).mpr hd)]
      · rw [if_neg hd, if_neg ?_]
        intro hcontra
        exact hd ((jsRemEqZero_eq_dvd (c + 1) N (Nat.pos_iff_ne_zero.mp hN)).mp hcontra)
    have hsucc : (c + 1) / N = c / N + if N ∣ (c + 1) then 1 else 0 := Nat.succ_div c N
    have hih := ih (c + 1)
    have harith : c + (m + 1) = (c + 1) + m := by omega
    rw [harith, ← hih]
    simp only [expectedFlags, List.sum_cons, hflag]
    omega

/-- Positional form of `expectedFlags`: the flag of the `i`-th call. -/
lemma expectedFlags_getElem (N : Nat) :
    ∀ (m c i : Nat), i < m →
      (expectedFlags N c m)[i]? = some (if jsRemEqZero (c + i + 1) N then 1 else 0) := by
  intro m
  induction m with
  | zero =>
    intro c i hi
    omega
  | succ m ih =>
    intro c i hi
    cases i with
    | zero =>
      simp [expectedFlags]
    | succ i =>
      have h := ih (c + 1) i (by omega)
      simp only [expectedFlags, List.getElem?_cons_succ]
      rw [h]
      have : c + 1 + i + 1 = c + (i + 1) + 1 := by omega
      rw [this]

/-- C3: a `debounce(N, target, ...)`-wrapped function (N positive),
called once per entry of `calls`, invokes the target exactly
`calls.length / N` times in total, and the `i`-th call (0-based)
performs exactly one invocation when `N` divides the 1-based call number
`i + 1`, and none otherwise. -/
theorem debounce_floor_pattern (N : Nat) (hN : 0 < N)
    (tgt : JSVal → List JSVal → JSVal) (bound : List JSVal)
    (calls : List (JSVal × List JSVal)) :
    (fireCounts (whenRun (debouncePredicate N) tgt bound 0 calls).1).sum
        = calls.length / N ∧
    ∀ i, i < calls.length →
      (fireCounts (whenRun (debouncePredicate N) tgt bound 0 calls).1)[i]?
          = some (if N ∣ (i + 1) then 1 else 0) := by
  have hrun := whenRun_debounce N tgt bound calls 0
  constructor
  · rw [hrun.1]
    have := expectedFlags_sum N hN calls.length 0
    simpa using this
  · intro i hi
    rw [hrun.1, expectedFlags_getElem N calls.length 0 i hi]
    have hflag : (if jsRemEqZero (0 + i + 1) N then (1 : Nat) else 0)
        = if N ∣ (i + 1) then 1 else 0 := by
      have hz : 0 + i + 1 = i + 1 := by omega
      rw [hz]
      by_cases hd : N ∣ (i + 1)
      · rw [if_pos hd, if_pos ((jsRemEqZero_eq_dvd (i + 1) N (Nat.pos_iff_ne_zero.mp hN)).mpr hd)]
      · rw [if_neg hd, if_neg ?_]
        intro hcontra
        exact hd ((jsRemEqZero_eq_dvd (i + 1) N (Nat.pos_iff_ne_zero.mp hN)).mp hcontra)
    rw [hflag]

/-- Witness for `debounce_floor_pattern`: period 2, five calls. -/
theorem debounce_floor_pattern_witness :
    0 < 2 ∧
    ((fireCounts (whenRun (debouncePredicate 2) ignoreTgt [] 0 (unitCalls 5)).1).sum
        = (unitCalls 5).length / 2 ∧
     ∀ i, i < (unitCalls 5).length →
       (fireCounts (whenRun (debouncePredicate 2) ignoreTgt [] 0 (unitCalls 5)).1)[i]?
           = some (if 2 ∣ (i + 1) then 1 else 0)) :=
  ⟨by decide, debounce_floor_pattern 2 (by decide) ignoreTgt [] (unitCalls 5)⟩

/-- C8: the private counter of a `debounce` instance increases by
exactly one per predicate evaluation — hence by exactly one per call to
the wrapped function, firing or not — and after any run of calls from
counter value `c` it equals `c` plus the number of calls: it grows
monotonically and is never reset. -/
theorem debounce_counter_increments (every : Nat)
    (tgt : JSVal → List JSVal → JSVal) (bound : List JSVal)
    (calls : List (JSVal × List JSVal)) (c : Nat) :
    (debouncePredicate every c).2 = c + 1 ∧
    (whenRun (debouncePredicate every) tgt bound c calls).2 = c + calls.length :=
  ⟨rfl, (whenRun_debounce every tgt bound calls c).2⟩

/-- C10: a `debounce(0, target, ...)`-wrapped function never invokes
the target: the post-increment counter is tested with JS `% 0`, which
yields `NaN`, and `NaN === 0` is false on every call. -/
theorem debounce_zero_never_fires (tgt : JSVal → List JSVal → JSVal)
    (bound : List JSVal) (calls : List (JSVal × List JSVal)) (c : Nat) :
    (fireCounts (whenRun (debouncePredicate 0) tgt bound c calls).1).sum = 0 := by
  rw [(whenRun_debounce 0 tgt bound calls c).1]
  induction calls.length generalizing c with
  | zero => simp [expectedFlags]
  | succ m ih =>
    simp only [expectedFlags, List.sum_cons, jsRemEqZero, if_pos rfl]
    simpa using ih (c + 1)

/-! ### Construction-time validation of `arglock` (claim C5) -/

/-- C5: the `arglock` factory itself throws — before any wrapped
function exists, hence before any first invocation — exactly when it is
given no argument at all or a first argument that is not callable; with
a callable first argument construction succeeds and returns the wrapped
function closing over that target and the remaining bound arguments. -/
theorem arglock_validation (args : List JSVal) :
    (arglock args = Except.error "first argument must be a function" ↔
      args = [] ∨ isCallable (args.headD JSVal.undef) = false) ∧
    (args ≠ [] → isCallable (args.headD JSVal.undef) = true →
      arglock args = Except.ok ⟨args.headD JSVal.undef, args.tail⟩) := by
  unfold arglock
  constructor
  · by_cases h : args.length = 0 || !(isCallable (args.headD JSVal.undef))
    · rw [if_pos h]
      simp only [Bool.or_eq_true, decide_eq_true_eq, Bool.not_eq_true'] at h
      constructor
      · intro _
        rcases h with h | h
        · exact Or.inl (List.length_eq_zero.mp h)
        · exact Or.inr h
      · intro _; rfl
    · rw [if_neg h]
      simp only [Bool.or_eq_true, decide_eq_true_eq, Bool.not_eq_true'] at h
      push_neg at h
      constructor
      · intro hcontra
        exact absurd hcontra (by simp)
      · intro hcases
        rcases hcases with hnil | hnc
        · exact absurd (by simp [hnil]) h.1
        · exact absurd hnc h.2
  · intro hne hcall
    rw [if_neg ?_]
    simp only [Bool.or_eq_true, decide_eq_true_eq, Bool.not_eq_true']
    push_neg
    refine ⟨fun hlen => hne (List.length_eq_zero.mp hlen), ?_⟩
    rw [hcall]
    simp

/-- Witness for `arglock_validation`: a callable target plus one bound
argument constructs successfully. -/
theorem arglock_validation_witness :
    ([JSVal.closure 0, JSVal.num 1] : List JSVal) ≠ [] ∧
    isCallable (([JSVal.closure 0, JSVal.num 1] : List JSVal).headD JSVal.undef) = true ∧
    arglock [JSVal.closure 0, JSVal.num 1] = Except.ok ⟨JSVal.closure 0, [JSVal.num 1]⟩ :=
  ⟨by decide, by decide,
   (arglock_validation [JSVal.closure 0, JSVal.num 1]).2 (by decide) (by decide)⟩

/-! ### Behaviour of `times` (claims C6, C7, C9) -/

/-- With a non-throwing target, `timesGo` performs every repetition:
it returns the ordered sequence of the target's successive values, the
target's final state, and a trace of `n` identical invocations. -/
lemma timesGo_pure {τ : Type} (tgt : τ → JSVal → List JSVal → JSVal × τ)
    (bound : List JSVal) (recv : JSVal) :
    ∀ (n : Nat) (st : τ),
      timesGo (liftPure tgt) bound recv n st
        = (Except.ok (pureSeq tgt recv bound n st).1,
           (pureSeq tgt recv bound n st).2,
           List.replicate n ⟨recv, bound⟩) := by
  intro n
  induction n with
  | zero =>
    intro st
    simp [timesGo, pureSeq]
  | succ n ih =>
    intro st
    simp only [timesGo, liftPure, pureSeq]
    rw [ih (tgt st recv bound).2]
    simp [List.replicate_succ]

/-- `pureSeq` produces one value per repetition. -/
lemma pureSeq_length {τ : Type} (tgt : τ → JSVal → List JSVal → JSVal × τ)
    (recv : JSVal) (bound : List JSVal) :
    ∀ (n : Nat) (st : τ), (pureSeq tgt recv bound n st).1.length = n := by
  intro n
  induction n with
  | zero => intro st; simp [pureSeq]
  | succ n ih =>
    intro st
    simp [pureSeq, ih]

/-- C6: one call of a `times(count, target, ...boundArgs)`-wrapped
function with a non-throwing target invokes the target exactly `count`
times in sequence — every invocation receiving only the bound arguments,
whatever call-time arguments were passed — and returns the ordered
sequence of the `count` return values, which has length `count`. -/
theorem times_pure_behavior {τ : Type} (count : Nat)
    (tgt : τ → JSVal → List JSVal → JSVal × τ) (bound : List JSVal)
    (st : τ) (recv : JSVal) (callArgs : List JSVal) :
    timesCall count (liftPure tgt) bound st recv callArgs
        = (Except.ok (pureSeq tgt recv bound count st).1,
           (pureSeq tgt recv bound count st).2,
           List.replicate count ⟨recv, bound⟩) ∧
    (pureSeq tgt recv bound count st).1.length = count :=
  ⟨timesGo_pure tgt bound recv count st, pureSeq_length tgt recv bound count st⟩

/-- If the indexed target first throws on its `k`-th invocation, the
`times` loop performs exactly the first `k` repetitions and propagates
that error. -/
lemma timesGo_idx_error (f : Nat → Except String JSVal) (e : String)
    (bound : List JSVal) (recv : JSVal) :
    ∀ (n s k : Nat), s < k → k ≤ s + n →
      (∀ j, j < k → s < j → isOkE (f j) = true) → f k = Except.error e →
      timesGo (idxTarget f) bound recv n s
        = (Except.error e, k, List.replicate (k - s) ⟨recv, bound⟩) := by
  intro n
  induction n with
  | zero =>
    intro s k h1 h2 _ _
    omega
  | succ n ih =>
    intro s k h1 h2 hok herr
    by_cases hks : k = s + 1
    · subst hks
      simp [timesGo, idxTarget, herr, List.replicate]
    · have hlt : s + 1 < k := by omega
      have hok1 : isOkE (f (s + 1)) = true := hok (s + 1) hlt (by omega)
      rcases hv : f (s + 1) with e' | v
      · rw [hv] at hok1
        simp [isOkE] at hok1
      · simp only [timesGo, idxTarget, hv]
        rw [ih (s + 1) k hlt (by omega) (fun j hj hj' => hok j hj (by omega)) herr]
        have hrep : (⟨recv, bound⟩ : Inv) :: List.replicate (k - (s + 1)) (⟨recv, bound⟩ : Inv)
            = List.replicate (k - s) (⟨recv, bound⟩ : Inv) := by
          rw [← List.replicate_succ]
          congr 1
          omega
        simp [hrep]

/-- C7: if the target of a `times(count, ...)`-wrapped function throws
on its `k`-th invocation of a call (1 ≤ k ≤ count), the call performs
exactly the first `k` repetitions — none after `k` — and the caller
receives exactly that error, not a partial result sequence. -/
theorem times_throw_aborts (count k : Nat) (f : Nat → Except String JSVal)
    (e : String) (bound callArgs : List JSVal) (recv : JSVal)
    (hk : 1 ≤ k) (hkc : k ≤ count)
    (hok : ∀ j, j < k → 1 ≤ j → isOkE (f j) = true)
    (herr : f k = Except.error e) :
    timesCall count (idxTarget f) bound 0 recv callArgs
        = (Except.error e, k, List.replicate k ⟨recv, bound⟩) := by
  unfold timesCall
  have h := timesGo_idx_error f e bound recv count 0 k (by omega) (by omega)
    (fun j hj hj' => hok j hj (by omega)) herr
  simpa using h

/-- A concrete indexed target for the `times` error witness: returns
normally on the first invocation and throws on the second. -/
def errAt2 : Nat → Except String JSVal :=
  fun j => if j = 2 then Except.error "boom" else Except.ok (JSVal.num 7)

/-- Witness for `times_throw_aborts`: with `count = 3` and a target
throwing on invocation 2, the call stops after 2 invocations and
propagates the error. -/
theorem times_throw_aborts_witness :
    (1 ≤ 2 ∧ 2 ≤ 3 ∧ errAt2 2 = Except.error "boom") ∧
    timesCall 3 (idxTarget errAt2) [] 0 JSVal.undef []
        = (Except.error "boom", 2, List.replicate 2 ⟨JSVal.undef, []⟩) :=
  ⟨⟨by decide, by decide, rfl⟩,
   times_throw_aborts 3 2 errAt2 "boom" [] [] JSVal.undef (by decide) (by decide)
     (by
       intro j hj hj'
       have hj1 : j = 1 := by omega
       subst hj1
       rfl)
     rfl⟩

/-- C9: every repetition performed during a call of a `times`-wrapped
function — with any stateful, possibly throwing target — applies the
target with the caller's receiver for that call (and only the bound
arguments), i.e. the receiver is dynamically forwarded even though the
call-time arguments are not. -/
theorem times_receiver_forwarded {τ : Type} (count : Nat)
    (fn : τ → JSVal → List JSVal → Except String JSVal × τ)
    (bound : List JSVal) (st : τ) (recv : JSVal) (callArgs : List JSVal) :
    ∀ inv ∈ (timesCall count fn bound st recv callArgs).2.2,
      inv.recv = recv ∧ inv.args = bound := by
  unfold timesCall
  induction count generalizing st with
  | zero =>
    intro inv hmem
    simp [timesGo] at hmem
  | succ n ih =>
    intro inv hmem
    simp only [timesGo] at hmem
    rcases hr : (fn st recv bound).1 with e | v
    · rw [hr] at hmem
      simp at hmem
      subst hmem
      exact ⟨rfl, rfl⟩
    · rw [hr] at hmem
      rcases hrec : timesGo fn bound recv n (fn st recv bound).2 with ⟨res, st'', tr⟩
      rcases res with e | vs
      · rw [hrec] at hmem
        simp at hmem
        rcases hmem with hmem | hmem
        · subst hmem; exact ⟨rfl, rfl⟩
        · have := ih (fn st recv bound).2 inv (by rw [hrec]; simpa using hmem)
          exact this
      · rw [hrec] at hmem
        simp at hmem
        rcases hmem with hmem | hmem
        · subst hmem; exact ⟨rfl, rfl⟩
        · have := ih (fn st recv bound).2 inv (by rw [hrec]; simpa using hmem)
          exact this

/-- A concrete non-throwing target over trivial state, for the
receiver-forwarding witness. -/
def okTgt : Unit → JSVal → List JSVal → Except String JSVal × Unit :=
  fun _ _ _ => (Except.ok (JSVal.num 1), ())

/-- Witness for `times_receiver_forwarded`: a single repetition records
the caller's receiver `num 5` and the bound arguments. -/
theorem times_receiver_forwarded_witness :
    (⟨JSVal.num 5, [JSVal.str "a"]⟩ : Inv)
        ∈ (timesCall 1 okTgt [JSVal.str "a"] () (JSVal.num 5) [JSVal.num 9]).2.2 ∧
    (⟨JSVal.num 5, [JSVal.str "a"]⟩ : Inv).recv = JSVal.num 5 ∧
    (⟨JSVal.num 5, [JSVal.str "a"]⟩ : Inv).args = [JSVal.str "a"] :=
  ⟨by decide,
   times_receiver_forwarded 1 okTgt [JSVal.str "a"] () (JSVal.num 5) [JSVal.num 9]
     ⟨JSVal.num 5, [JSVal.str "a"]⟩ (by decide)⟩

/-! ### The `rateLimit` pending-timer invariant (claim C4) -/

/-- Clearing a timeout only removes entries. -/
lemma mem_hostClearTimeout {l : List Nat} {id x : Nat}
    (h : x ∈ hostClearTimeout l id) : x ∈ l := by
  unfold hostClearTimeout at h
  exact (List.mem_filter.mp h).1

/-- A freshly constructed instance satisfies the invariant. -/
lemma rlInv_init : rlInv rlInit := by
  refine ⟨Or.inl rfl, ?_, ?_⟩ <;> simp [rlInit]

/-- Every event preserves the `rateLimit` invariant. -/
lemma rlInv_step (s : RLState) (e : RLEvent) (h : rlInv s) : rlInv (rlStep s e) := by
  obtain ⟨hact, hbound, hclear⟩ := h
  cases e with
  | call =>
    have hcleared : (match s.clear with
        | some id => hostClearTimeout s.active id
        | none => s.active) = [] := by
      rcases hact with hnil | ⟨c, hc, hc2⟩
      · cases s.clear <;> simp [hnil, hostClearTimeout]
      · rw [hc, hc2]
        simp [hostClearTimeout]
    refine ⟨?_, ?_, ?_⟩
    · simp only [rlStep, hcleared]
      exact Or.inr ⟨s.nextId, rfl, rfl⟩
    · simp only [rlStep, hcleared]
      intro id hid
      simp at hid
      omega
    · simp only [rlStep, hcleared]
      intro c hc
      simp at hc
      omega
  | handle hid =>
    refine ⟨?_, ?_, ?_⟩
    · simp only [rlStep]
      rcases hact with hnil | ⟨c, hc, hc2⟩
      · rw [hnil]
        exact Or.inl rfl
      · rw [hc2]
        by_cases hcid : c = hid
        · subst hcid
          simp [hostClearTimeout]
        · refine Or.inr ⟨c, hc, ?_⟩
          simp [hostClearTimeout, hcid]
    · intro id hid'
      simp only [rlStep] at hid'
      exact hbound id (mem_hostClearTimeout hid')
    · intro c hc
      simp only [rlStep] at hc
      exact hclear c hc
  | fire fid =>
    by_cases hmem : fid ∈ s.active
    · refine ⟨?_, ?_, ?_⟩
      · simp only [rlStep, if_pos hmem]
        rcases hact with hnil | ⟨c, hc, hc2⟩
        · rw [hnil]
          exact Or.inl rfl
        · rw [hc2]
          have : fid = c := by
            rw [hc2] at hmem
            simpa using hmem
          subst this
          simp [hostClearTimeout]
      · simp only [rlStep, if_pos hmem]
        intro id hid'
        exact hbound id (mem_hostClearTimeout hid')
      · simp only [rlStep, if_pos hmem]
        intro c hc
        exact hclear c hc
    · simp only [rlStep, if_neg hmem]
      exact ⟨hact, hbound, hclear⟩

/-- The invariant holds along any event sequence from any state
satisfying it. -/
lemma rlInv_foldl : ∀ (evs : List RLEvent) (s : RLState), rlInv s →
    rlInv (evs.foldl rlStep s) := by
  intro evs
  induction evs with
  | nil => intro s h; exact h
  | cons e rest ih =>
    intro s h
    simp only [List.foldl_cons]
    exact ih (rlStep s e) (rlInv_step s e h)

/-- Every reachable state of a `rateLimit` instance satisfies the
invariant. -/
lemma rlInv_run (evs : List RLEvent) : rlInv (rlRun evs) :=
  rlInv_foldl evs rlInit rlInv_init

/-- In an invariant state a call leaves exactly its own fresh timeout
pending: any previously pending one is cancelled first. -/
lemma rl_call_supersedes (s : RLState) (h : rlInv s) :
    (rlStep s RLEvent.call).active = [s.nextId] := by
  obtain ⟨hact, _, _⟩ := h
  have hcleared : (match s.clear with
      | some id => hostClearTimeout s.active id
      | none => s.active) = [] := by
    rcases hact with hnil | ⟨c, hc, hc2⟩
    · cases s.clear <;> simp [hnil, hostClearTimeout]
    · rw [hc, hc2]
      simp [hostClearTimeout]
  simp only [rlStep, hcleared]
  rfl

/-- One event cannot resurrect a timeout that is no longer scheduled:
it stays unscheduled, stays below the id supply, and cannot fire. -/
lemma rl_cancelled_step (s : RLState) (e : RLEvent) (id : Nat)
    (hlt : id < s.nextId) (hnot : id ∉ s.active) :
    id < (rlStep s e).nextId ∧ id ∉ (rlStep s e).active ∧
    ((rlStep s e).fired = s.fired ∨
      ∃ x, (rlStep s e).fired = s.fired ++ [x] ∧ x ≠ id) := by
  cases e with
  | call =>
    refine ⟨?_, ?_, ?_⟩
    · simp only [rlStep]
      omega
    · simp only [rlStep]
      intro hmem
      rcases List.mem_append.mp hmem with hmem' | hmem'
      · rcases hcl : s.clear with _ | c
        · rw [hcl] at hmem'
          exact hnot hmem'
        · rw [hcl] at hmem'
          exact hnot (mem_hostClearTimeout hmem')
      · simp at hmem'
        omega
    · exact Or.inl rfl
  | handle hid =>
    refine ⟨hlt, ?_, Or.inl rfl⟩
    intro hmem
    exact hnot (mem_hostClearTimeout hmem)
  | fire fid =>
    by_cases hmem : fid ∈ s.active
    · refine ⟨?_, ?_, ?_⟩
      · simp only [rlStep, if_pos hmem]
        exact hlt
      · simp only [rlStep, if_pos hmem]
        intro hmem'
        exact hnot (mem_hostClearTimeout hmem')
      · refine Or.inr ⟨fid, ?_, ?_⟩
        · simp [rlStep, if_pos hmem]
        · intro hcontra
          subst hcontra
          exact hnot hmem
    · refine ⟨?_, ?_, ?_⟩
      · simp only [rlStep, if_neg hmem]
        exact hlt
      · simp only [rlStep, if_neg hmem]
        exact hnot
      · exact Or.inl (by simp only [rlStep, if_neg hmem])

/-- A cancelled timeout never fires, over any later event sequence. -/
lemma rl_cancelled_never_fires (id : Nat) :
    ∀ (more : List RLEvent) (s : RLState), id < s.nextId → id ∉ s.active →
      id ∈ (more.foldl rlStep s).fired → id ∈ s.fired := by
  intro more
  induction more with
  | nil =>
    intro s _ _ h
    exact h
  | cons e rest ih =>
    intro s hlt hnot hmem
    obtain ⟨h1, h2, h3⟩ := rl_cancelled_step s e id hlt hnot
    simp only [List.foldl_cons] at hmem
    have := ih (rlStep s e) h1 h2 hmem
    rcases h3 with heq | ⟨x, heq, hne⟩
    · rwa [heq] at this
    · rw [heq] at this
      rcases List.mem_append.mp this with h | h
      · exact h
      · simp at h
        exact absurd h.symm hne

/-- C4: over every sequence of wrapped-function calls, cancellation-
handle invocations and timer firings, a `rateLimit` instance keeps at
most one scheduled invocation outstanding; a further call cancels
whatever was pending and leaves exactly its own fresh timeout pending;
and a timeout that is no longer scheduled (cancelled or superseded)
never fires afterwards. -/
theorem rateLimit_single_pending (evs : List RLEvent) :
    (rlRun evs).active.length ≤ 1 ∧
    (rlStep (rlRun evs) RLEvent.call).active = [(rlRun evs).nextId] ∧
    (∀ id, id < (rlRun evs).nextId → id ∉ (rlRun evs).active →
      ∀ more : List RLEvent,
        id ∈ (more.foldl rlStep (rlRun evs)).fired → id ∈ (rlRun evs).fired) := by
  have hinv := rlInv_run evs
  refine ⟨?_, rl_call_supersedes (rlRun evs) hinv, ?_⟩
  · rcases hinv.1 with hnil | ⟨c, _, hc2⟩
    · rw [hnil]
      simp
    · rw [hc2]
      simp
  · intro id hlt hnot more hmem
    exact rl_cancelled_never_fires id more (rlRun evs) hlt hnot hmem

/-- Witness for `rateLimit_single_pending`: after two calls the first
call's timeout (id 0) is superseded; firing it later is a no-op, so it
never enters the fired list. -/
theorem rateLimit_single_pending_witness :
    ((0 : Nat) < (rlRun [RLEvent.call, RLEvent.call]).nextId ∧
      (0 : Nat) ∉ (rlRun [RLEvent.call, RLEvent.call]).active) ∧
    ((0 : Nat) ∈ (([RLEvent.fire 0]).foldl rlStep (rlRun [RLEvent.call, RLEvent.call])).fired →
      (0 : Nat) ∈ (rlRun [RLEvent.call, RLEvent.call]).fired) :=
  ⟨⟨by decide, by decide⟩,
   (rateLimit_single_pending [RLEvent.call, RLEvent.call]).2.2 0 (by decide) (by decide)
     [RLEvent.fire 0]⟩

end Fn
